import Mathlib

/-!
Shallow embedding of the stylelint ignore-list maintenance scripts
(`compressStylelintIgnore.js`, the delete-stylelintignore script and its helpers),
together with proofs about the suppression planner, the suppression writer,
the disable-comment filter, the manifest compactor and the rename/restore
behaviour around the lint-engine invocations.

Line-oriented text is modelled as `List String`, JS `Map`s as insertion-ordered
association lists, JS `Set`s as insertion-ordered duplicate-free lists, and the
external collaborators (glob expansion, the filesystem, the stylelint engine)
as explicit function parameters.
-/

namespace VkStylelint

/-- Whitespace test used to model `String.prototype.trim` and the `\s`
character class for the strings that occur in this codebase. -/
def isJsSpace (c : Char) : Bool :=
  c = ' ' || c = '\t' || c = '\n' || c = '\r' || c = '\x0b' || c = '\x0c'

/-- Chars of a string with leading and trailing whitespace removed. -/
def trimCharsJs (l : List Char) : List Char :=
  ((l.dropWhile isJsSpace).reverse.dropWhile isJsSpace).reverse

/-- Model of `line.trim()`. -/
def jsTrim (s : String) : String :=
  String.mk (trimCharsJs s.data)

/-- Index actually used by `Array.prototype.splice(i, 0, a)`: a negative index
counts from the end (floored at 0), a non-negative one is clamped to the length. -/
def jsSpliceIndex (len : Nat) (i : Int) : Nat :=
  if i < 0 then ((len : Int) + i).toNat else min i.toNat len

/-- Insert `a` in front of position `n` of a list (appends when `n` exceeds the
length, which the clamped splice index never does). -/
def insertAt {α : Type} : Nat → α → List α → List α
  | 0, a, l => a :: l
  | _ + 1, a, [] => [a]
  | n + 1, a, b :: l => b :: insertAt n a l

/-- Model of `sourceCodeFile.splice(i, 0, a)` on a line buffer. -/
def jsSpliceInsert (l : List String) (i : Int) (a : String) : List String :=
  insertAt (jsSpliceIndex l.length i) a l

/-- Value of a decimal string under `Number(...)` as used on the planner keys;
`none` stands for `NaN`, which never occurs because keys are built from
stylelint's numeric line fields (note `Number('') = 0` in JS). -/
def jsNumberNat (s : String) : Option Nat :=
  if s.data.all Char.isDigit then
    some (s.data.foldl (fun n c => n * 10 + (c.toNat - 48)) 0)
  else none

/-- `String.prototype.split(c)`, accumulator-based worker. -/
def splitOnCharAux (c : Char) : List Char → List Char → List String
  | [], acc => [String.mk acc.reverse]
  | x :: xs, acc =>
    if x = c then String.mk acc.reverse :: splitOnCharAux c xs []
    else splitOnCharAux c xs (x :: acc)

/-- Model of `s.split(c)` for a one-character separator (also used for the
line-splitting `split('\n')` of source files). -/
def splitOnChar (c : Char) (s : String) : List String :=
  splitOnCharAux c s.data []

/-- `Number(key.split('|')[0])`: the start line encoded in a planner key. -/
def keyStartLine (k : String) : Nat :=
  (jsNumberNat ((splitOnChar '|' k).headD "")).getD 0

/-- `Number(key.split('|')[1])`: the end line encoded in a planner key. -/
def keyEndLine (k : String) : Nat :=
  (jsNumberNat ((splitOnChar '|' k).getD 1 "")).getD 0

/-- `Array.prototype.join(',')`. -/
def joinWithComma : List String → String
  | [] => ""
  | [r] => r
  | r :: rs => r ++ "," ++ joinWithComma rs

/-- `Array.prototype.join('\n')`, the persist step of the suppression writer. -/
def joinWithNewlines : List String → String
  | [] => ""
  | [l] => l
  | l :: ls => l ++ "\n" ++ joinWithNewlines ls

/-- `helperCommentDisableFromArrayRules`: render a rule set as
`/* stylelint-<commentType> <rule1,rule2,...> */`. -/
def helperCommentDisableFromArrayRules (rules : List String) (commentType : String) : String :=
  "/* stylelint-" ++ commentType ++ " " ++ joinWithComma rules ++ " */"

/-- One stylelint warning as returned by the lint engine. -/
structure Warning where
  severity : String
  line : Nat
  endLine : Nat
  rule : String
deriving DecidableEq, Repr

/-- One per-file lint result as returned by `stylelint.lint(...).results`. -/
structure LintFileResult where
  source : String
  errored : Bool
  warnings : List Warning
deriving DecidableEq, Repr

/-- `Set.prototype.add` on an insertion-ordered duplicate-free list. -/
def jsSetAdd {α : Type} [DecidableEq α] (s : List α) (x : α) : List α :=
  if x ∈ s then s else s ++ [x]

/-- `new Set(list)`: keep the first occurrence of each element, in order. -/
def dedupFirst {α : Type} [DecidableEq α] (l : List α) : List α :=
  l.foldl jsSetAdd []

/-- The grouping key `` `${line}|${endLine}` `` of one warning. -/
def keyOfWarning (w : Warning) : String :=
  toString w.line ++ "|" ++ toString w.endLine

/-- `if (!acc.has(key)) acc.set(key, new Set()); acc.get(key).add(rule)` on the
insertion-ordered map of the planner, modelled as an association list. -/
def mapAddRule (m : List (String × List String)) (k r : String) :
    List (String × List String) :=
  if m.any (fun e => e.1 == k) then
    m.map (fun e => if e.1 == k then (e.1, jsSetAdd e.2 r) else e)
  else m ++ [(k, jsSetAdd [] r)]

/-- `helperCollectionFilesErrorsFromWarningsArray`: drop warnings whose severity
is not `error`, group the rest by the `` `${line}|${endLine}` `` key, collecting
the set of rules per key. -/
def helperCollectionFilesErrorsFromWarningsArray (ws : List Warning) :
    List (String × List String) :=
  ws.foldl
    (fun acc w =>
      if w.severity == "error" then mapAddRule acc (keyOfWarning w) w.rule else acc)
    []

/-- The comparator `startLine1 - startLine2` of the planner's sort, as the
relation "may come first". -/
def planLE (a b : String × List String) : Prop :=
  keyStartLine a.1 ≤ keyStartLine b.1

instance : DecidableRel planLE := fun a b => Nat.decLe _ _

instance : IsTotal (String × List String) planLE :=
  ⟨fun a b => Nat.le_total (keyStartLine a.1) (keyStartLine b.1)⟩

instance : IsTrans (String × List String) planLE :=
  ⟨fun _ _ _ h1 h2 => Nat.le_trans h1 h2⟩

/-- `helperSortedEntiresFromCollectionFilesErrors`: the plan as the map's entries
stable-sorted ascending by the start line parsed back out of the key (modern JS
`Array.prototype.sort` is a stable sort). -/
def helperSortedEntiresFromCollectionFilesErrors (m : List (String × List String)) :
    List (String × List String) :=
  List.insertionSort planLE m

/-- Body of the writer's loop over one plan entry: state is the current line
buffer and `counterInsertionLines`.  In block mode both splice indices are
computed from the counter value before this entry's own insertions, the
`disable` comment is spliced first, then the `enable` comment, and the counter
grows by 2; in single-line mode one `disable-next-line` comment is spliced and
the counter grows by 1. -/
def processPlanEntry (useStylelintDisableComments : Bool)
    (st : List String × Nat) (e : String × List String) : List String × Nat :=
  let startLine := keyStartLine e.1
  let endLine := keyEndLine e.1
  if useStylelintDisableComments then
    let indexDisableComment : Int := (startLine : Int) - 1 + (st.2 : Int)
    let disableComment := helperCommentDisableFromArrayRules e.2 "disable"
    let indexEnableComment : Int := (endLine : Int) + 1 + (st.2 : Int)
    let enableComment := helperCommentDisableFromArrayRules e.2 "enable"
    let buf1 := jsSpliceInsert st.1 indexDisableComment disableComment
    let buf2 := jsSpliceInsert buf1 indexEnableComment enableComment
    (buf2, st.2 + 2)
  else
    let indexDisableNextLineComment : Int := (startLine : Int) - 1 + (st.2 : Int)
    let disableNextLineComment :=
      helperCommentDisableFromArrayRules e.2 "disable-next-line"
    (jsSpliceInsert st.1 indexDisableNextLineComment disableNextLineComment, st.2 + 1)

/-- The writer's whole per-file loop: fold the plan entries over the line
buffer, starting with `counterInsertionLines = 0`. -/
def applySuppressionPlan (useStylelintDisableComments : Bool)
    (lines : List String) (plan : List (String × List String)) : List String :=
  (plan.foldl (processPlanEntry useStylelintDisableComments) (lines, 0)).1

/-- The Suppression Planner's contract as the spec words it (used to compare
against `helperCollectionFilesErrorsFromWarningsArray`): drop every violation
whose severity is not `error`, list the distinct `` `${line}|${endLine}` `` keys
in first-occurrence order, and attach to each key the distinct rules of its
group in first-occurrence order. -/
def plannerGroupingSpec (ws : List Warning) : List (String × List String) :=
  let es := ws.filter (fun w => w.severity == "error")
  (dedupFirst (es.map keyOfWarning)).map
    (fun k =>
      (k, dedupFirst ((es.filter (fun w => keyOfWarning w == k)).map Warning.rule)))

/-- A JS value as stored in the compress script's per-entry file `Set`s: either
a path string, or a reference to a lint-result object (compared by identity,
here an id); `Set.prototype.delete` uses SameValueZero, so an object reference
never equals a string. -/
inductive JSVal where
  | str : String → JSVal
  | obj : Nat → JSVal
deriving DecidableEq, Repr

/-- The projection of one entry of `stylelint.lint(...).results` used by the
compress script's `filterFilesWithoutErrors`: the result object's identity and
its `errored` flag. -/
structure CompressLintResult where
  id : Nat
  errored : Bool
deriving DecidableEq, Repr

/-- The test `/^\/\*\s*stylelint-disable\s*\*\/$/` on an (already trimmed)
line: literally `/*`, then optional whitespace, the word `stylelint-disable`,
optional whitespace, and `*/`. -/
def matchBlanketDisable (s : String) : Bool :=
  let cs := s.data
  decide (4 ≤ cs.length) && (cs.take 2 == ['/', '*'])
    && (cs.drop (cs.length - 2) == ['*', '/'])
    && (trimCharsJs ((cs.drop 2).take (cs.length - 4)) == "stylelint-disable".data)

/-- Decision the disable-comment filter takes for one file: skip blank lines,
test the first non-blank line (trimmed) against the blanket-disable pattern,
and stop reading. -/
def firstNonBlankIsBlanketDisable : List String → Bool
  | [] => false
  | l :: ls =>
    if jsTrim l == "" then firstNonBlankIsBlanketDisable ls
    else matchBlanketDisable (jsTrim l)

/-- `filterFilesWithDisableComment` on the flat file set of the eliminator
script: remove each file whose first non-blank line is a blanket disable
comment (`fileLines` models reading a file as its lines). -/
def filterFilesWithDisableComment (fileLines : String → List String)
    (files : List String) : List String :=
  files.filter (fun f => !(firstNonBlankIsBlanketDisable (fileLines f)))

/-- Reading the lines of the file a set member denotes; the reader only ever
puts path strings into file sets, so the object case is unreachable. -/
def jsValLines (fileLines : String → List String) : JSVal → List String
  | .str s => fileLines s
  | .obj _ => []

/-- `filterFilesWithDisableComment` of the compress script: the same per-file
test applied inside every manifest entry, after which entries whose file set
became empty are dropped from the map. -/
def filterFilesWithDisableCommentEntries (fileLines : String → List String)
    (m : List (String × List JSVal)) : List (String × List JSVal) :=
  (m.map (fun e =>
      (e.1, e.2.filter (fun v => !(firstNonBlankIsBlanketDisable (jsValLines fileLines v)))))).filter
    (fun e => !(e.2.isEmpty))

/-- `files.delete(file)` in the compress script's `filterFilesWithoutErrors`:
the argument is the whole lint-result object, so the value removed from the set
of path strings is the object reference `JSVal.obj r.id`. -/
def filesDeleteResult (files : List JSVal) (r : CompressLintResult) : List JSVal :=
  files.filter (fun v => v != JSVal.obj r.id)

/-- One rename of the manifest: `.stylelintignore → hash` or back. -/
inductive RenameEv where
  | toHash
  | toIgnore
deriving DecidableEq, Repr

/-- Whether the manifest is still renamed to `hash` after a sequence of
renames (the last rename wins). -/
def manifestRenamedAfter (evs : List RenameEv) : Bool :=
  evs.foldl (fun _ e => match e with | .toHash => true | .toIgnore => false) false

/-- The compress script's `filterFilesWithoutErrors`: per entry, rename the
manifest to `hash`, run the lint engine on the entry's files, rename back, then
delete every non-errored result from the file set and drop the entry if the set
became empty.  A lint rejection is handled by the surrounding catch, whose
handler renames `hash` back and stops the loop.  Returns the resulting
collection together with the trace of renames. -/
def filterFilesWithoutErrorsRun
    (lint : List JSVal → Option (List CompressLintResult)) :
    List (String × List JSVal) → List (String × List JSVal) × List RenameEv
  | [] => ([], [])
  | e :: rest =>
    match lint e.2 with
    | none => (e :: rest, [RenameEv.toHash, RenameEv.toIgnore])
    | some results =>
      let files := results.foldl
        (fun fs r => if !r.errored then filesDeleteResult fs r else fs) e.2
      let next := filterFilesWithoutErrorsRun lint rest
      ((if files.isEmpty then next.1 else (e.1, files) :: next.1),
        RenameEv.toHash :: RenameEv.toIgnore :: next.2)

/-- Loop body of `writeNewStylelintIgnore` for one entry:
`if (files.size) newStylelintIgnoreContent += line + '\n'`. -/
def writeNewStep (acc : String) (e : String × List JSVal) : String :=
  if e.2.isEmpty then acc else acc ++ e.1 ++ "\n"

/-- `writeNewStylelintIgnore`: concatenate `line + '\n'` for every entry whose
file set is non-empty, producing the new manifest content. -/
def writeNewStylelintIgnoreContent (m : List (String × List JSVal)) : String :=
  m.foldl writeNewStep ""

/-- `line.endsWith('.css')`. -/
def endsWithCss (s : String) : Bool :=
  s.data.reverse.take 4 == ['s', 's', 'c', '.']

/-- The manifest reader's pattern transform: a line not ending in `.css` is a
directory pattern and gets `**/*.css` appended. -/
def transformPattern (line : String) : String :=
  if endsWithCss line then line else line ++ "**/*.css"

/-- `Map.prototype.set` on an association list: replace the value in place when
the key exists, append otherwise. -/
def mapSetEntry (m : List (String × List JSVal)) (k : String) (v : List JSVal) :
    List (String × List JSVal) :=
  if m.any (fun e => e.1 == k) then
    m.map (fun e => if e.1 == k then (e.1, v) else e)
  else m ++ [(k, v)]

/-- Loop body of the compress script's manifest reader for one manifest line:
skip a blank or `#`-comment line, expand the (transformed) pattern via glob,
skip the line when no file matches, and otherwise map the raw line to the set
of resolved paths. -/
def readerStep (glob : String → List String)
    (acc : List (String × List JSVal)) (line : String) :
    List (String × List JSVal) :=
  if jsTrim line == "" then acc
  else if (jsTrim line).data.headD ' ' == '#' then acc
  else
    let files := glob (transformPattern line)
    if files.isEmpty then acc
    else mapSetEntry acc line ((dedupFirst files).map JSVal.str)

/-- `getStylelintIgnoreContent` of the compress script: fold the reader's loop
body over the manifest's lines. -/
def getStylelintIgnoreContentEntries (glob : String → List String)
    (lines : List String) : List (String × List JSVal) :=
  lines.foldl (readerStep glob) []

/-- `getStylelintIgnoreContent` of the eliminator script: same reading logic,
but all resolved files are accumulated into one set. -/
def getStylelintIgnoreContentFiles (glob : String → List String)
    (lines : List String) : List String :=
  lines.foldl
    (fun acc line =>
      if jsTrim line == "" then acc
      else if (jsTrim line).data.headD ' ' == '#' then acc
      else
        let files := glob (transformPattern line)
        if files.isEmpty then acc
        else files.foldl jsSetAdd acc)
    []

/-- `determinateSizeAndLengthFile`: byte size of the content and the length of
`content.split('\n')`. -/
def determinateSizeAndLengthFile (content : String) : Nat × Nat :=
  (content.utf8ByteSize, (splitOnChar '\n' content).length)

/-- The whole `compressStylelintIgnore` pipeline on a manifest content string:
report size/length, read the manifest into entries, filter files with a blanket
disable comment, filter files without errors (renaming the manifest around the
lint call), rewrite the manifest, and report size/length of the result.
Returns the rewritten content and the two reported (size, length) pairs. -/
def compressStylelintIgnoreRun (c : String) (glob : String → List String)
    (fileLines : String → List String)
    (lint : List JSVal → Option (List CompressLintResult)) :
    String × ((Nat × Nat) × (Nat × Nat)) :=
  let before := determinateSizeAndLengthFile c
  let coll0 := getStylelintIgnoreContentEntries glob (splitOnChar '\n' c)
  let coll1 := filterFilesWithDisableCommentEntries fileLines coll0
  let coll2 := (filterFilesWithoutErrorsRun lint coll1).1
  let out := writeNewStylelintIgnoreContent coll2
  (out, (before, determinateSizeAndLengthFile out))

/-- The error count computed by `getStylelintCountErrors`: the number of
warnings of severity `error` across all results. -/
def getStylelintCountErrorsCount (rs : List LintFileResult) : Nat :=
  rs.foldl
    (fun acc f =>
      acc + f.warnings.foldl (fun a w => if w.severity == "error" then a + 1 else a) 0)
    0

/-- `getStylelintCountErrors`: rename the manifest to `hash`, lint, rename
back, and reduce the results to the error count.  The function has no
try/catch, so a lint rejection propagates before the second rename runs: the
input `none` models a rejecting lint call. -/
def getStylelintCountErrorsRun (lint : Option (List LintFileResult)) :
    Option Nat × List RenameEv :=
  match lint with
  | none => (none, [RenameEv.toHash])
  | some rs => (some (getStylelintCountErrorsCount rs), [RenameEv.toHash, RenameEv.toIgnore])

/-- `fs.writeFile` over a filesystem modelled as an association list of
path/content pairs. -/
def fsWrite (fs : List (String × String)) (p c : String) :
    List (String × String) :=
  if fs.any (fun e => e.1 == p) then
    fs.map (fun e => if e.1 == p then (e.1, c) else e)
  else fs ++ [(p, c)]

/-- `fs.readFile` on the modelled filesystem. -/
def fsRead (fs : List (String × String)) (p : String) : String :=
  ((fs.find? (fun e => e.1 == p)).map Prod.snd).getD ""

/-- The plan the eliminator computes for one file's warnings: group, then
stable-sort by start line. -/
def planForWarnings (ws : List Warning) : List (String × List String) :=
  helperSortedEntiresFromCollectionFilesErrors
    (helperCollectionFilesErrorsFromWarningsArray ws)

/-- New content of one source file after the writer pass: split into lines,
apply the suppression plan, join with newlines. -/
def newFileContent (useStylelintDisableComments : Bool) (content : String)
    (ws : List Warning) : String :=
  joinWithNewlines
    (applySuppressionPlan useStylelintDisableComments (splitOnChar '\n' content)
      (planForWarnings ws))

/-- The per-result loop of `addingCommentsWithStylelintErrors`: skip results
whose `errored` flag is false; for an errored result, read the source file,
compute and write its new content, then truncate the manifest file to the empty
string — both writes inside the loop body.  Returns the final filesystem and
the ordered trace of writes. -/
def addingCommentsLoop (useStylelintDisableComments : Bool) (ignorePath : String) :
    List LintFileResult → List (String × String) →
      List (String × String) × List (String × String)
  | [], fs => (fs, [])
  | r :: rs, fs =>
    if r.errored then
      let content :=
        newFileContent useStylelintDisableComments (fsRead fs r.source) r.warnings
      let fs1 := fsWrite fs r.source content
      let fs2 := fsWrite fs1 ignorePath ""
      let next := addingCommentsLoop useStylelintDisableComments ignorePath rs fs2
      (next.1, (r.source, content) :: (ignorePath, "") :: next.2)
    else addingCommentsLoop useStylelintDisableComments ignorePath rs fs

/-- `addingCommentsWithStylelintErrors`: rename the manifest to `hash`, lint the
files (`none` models a rejecting lint call, handled by the catch whose handler
renames `hash` back), rename back and run the per-result loop.  Returns the
final filesystem, the write trace and the rename trace. -/
def addingCommentsWithStylelintErrors (useStylelintDisableComments : Bool)
    (ignorePath : String) (lint : Option (List LintFileResult))
    (fs : List (String × String)) :
    List (String × String) × List (String × String) × List RenameEv :=
  match lint with
  | none => (fs, [], [RenameEv.toHash, RenameEv.toIgnore])
  | some results =>
    let res := addingCommentsLoop useStylelintDisableComments ignorePath results fs
    (res.1, res.2, [RenameEv.toHash, RenameEv.toIgnore])

/-- The `deleteStylelintIgnore` orchestration: read the manifest into one file
set, report the error count over it, drop files carrying a blanket disable
comment, add suppression comments (block mode) to the remaining files, then
report the error count over the filtered set against the mutated filesystem.
`lint` models the engine as a function of the queried file list and the current
filesystem.  Returns the two reported counts and the final filesystem. -/
def deleteStylelintIgnoreRun (c : String) (glob : String → List String)
    (lint : List String → List (String × String) → List LintFileResult)
    (ignorePath : String) (fs0 : List (String × String)) :
    (Nat × Nat) × List (String × String) :=
  let files0 := getStylelintIgnoreContentFiles glob (splitOnChar '\n' c)
  let before := ((getStylelintCountErrorsRun (some (lint files0 fs0))).1).getD 0
  let files1 :=
    filterFilesWithDisableComment (fun f => splitOnChar '\n' (fsRead fs0 f)) files0
  let st := addingCommentsWithStylelintErrors true ignorePath
    (some (lint files1 fs0)) fs0
  let after := ((getStylelintCountErrorsRun (some (lint files1 st.1))).1).getD 0
  ((before, after), st.1)

/-- C1: block mode of the suppression writer.  On the 3-line file with plan
`[(2,2,{x})]`, the result is exactly line1, the disable comment, line2, the
enable comment, line3; and in general each plan entry splices the disable
comment at `startLine - 1 + insertedSoFar` and the enable comment at
`endLine + 1 + insertedSoFar`, both computed from the counter value before this
entry's own insertions, and bumps the counter by 2. -/
theorem writer_block_mode_correct :
    (applySuppressionPlan true ["line1", "line2", "line3"] [("2|2", ["x"])] =
      ["line1", "/* stylelint-disable x */", "line2",
        "/* stylelint-enable x */", "line3"]) ∧
    (∀ (buf : List String) (c : Nat) (e : String × List String),
      processPlanEntry true (buf, c) e =
        (jsSpliceInsert
            (jsSpliceInsert buf ((keyStartLine e.1 : Int) - 1 + (c : Int))
              (helperCommentDisableFromArrayRules e.2 "disable"))
            ((keyEndLine e.1 : Int) + 1 + (c : Int))
            (helperCommentDisableFromArrayRules e.2 "enable"),
          c + 2)) := by
  exact ⟨by decide, fun buf c e => rfl⟩

/-- C2: single-line mode of the suppression writer.  Each plan entry splices one
`disable-next-line` comment at `startLine - 1 + insertedSoFar` and bumps the
counter by 1; on the 5-line file with plan `[(2,2,{x}), (4,4,{y})]` the comments
land at buffer indices 1 and 4 and the 7-line result has each comment
immediately before the lines that were originally lines 2 and 4. -/
theorem writer_single_line_mode_correct :
    (applySuppressionPlan false ["l1", "l2", "l3", "l4", "l5"]
        [("2|2", ["x"]), ("4|4", ["y"])] =
      ["l1", "/* stylelint-disable-next-line x */", "l2", "l3",
        "/* stylelint-disable-next-line y */", "l4", "l5"]) ∧
    (∀ (buf : List String) (c : Nat) (e : String × List String),
      processPlanEntry false (buf, c) e =
        (jsSpliceInsert buf ((keyStartLine e.1 : Int) - 1 + (c : Int))
            (helperCommentDisableFromArrayRules e.2 "disable-next-line"),
          c + 1)) := by
  exact ⟨by decide, fun buf c e => rfl⟩

/-! Helper lemmas about the JS `Set`/`Map` models. -/

theorem mem_foldl_jsSetAdd {α : Type} [DecidableEq α] (l : List α) :
    ∀ (acc : List α) (a : α), a ∈ l.foldl jsSetAdd acc ↔ a ∈ acc ∨ a ∈ l := by
  induction l with
  | nil => intro acc a; simp
  | cons x xs ih =>
    intro acc a
    rw [List.foldl_cons, ih]
    simp only [jsSetAdd, List.mem_cons]
    by_cases hx : x ∈ acc
    · simp only [if_pos hx]
      constructor
      · intro h; tauto
      · rintro (h | h | h)
        · tauto
        · subst h; tauto
        · tauto
    · simp only [if_neg hx, List.mem_append, List.mem_singleton]
      tauto

theorem mem_dedupFirst {α : Type} [DecidableEq α] (l : List α) (a : α) :
    a ∈ dedupFirst l ↔ a ∈ l := by
  unfold dedupFirst
  rw [mem_foldl_jsSetAdd]
  simp

theorem dedupFirst_concat {α : Type} [DecidableEq α] (l : List α) (x : α) :
    dedupFirst (l ++ [x]) = jsSetAdd (dedupFirst l) x := by
  unfold dedupFirst
  rw [List.foldl_append]
  rfl

theorem nodup_foldl_jsSetAdd {α : Type} [DecidableEq α] (l : List α) :
    ∀ acc : List α, acc.Nodup → (l.foldl jsSetAdd acc).Nodup := by
  induction l with
  | nil => intro acc h; exact h
  | cons x xs ih =>
    intro acc h
    rw [List.foldl_cons]
    apply ih
    unfold jsSetAdd
    by_cases hx : x ∈ acc
    · simpa [hx]
    · simp [hx, List.nodup_append, h]

theorem nodup_dedupFirst {α : Type} [DecidableEq α] (l : List α) :
    (dedupFirst l).Nodup :=
  nodup_foldl_jsSetAdd l [] List.nodup_nil

theorem dedupFirst_eq_nil {α : Type} [DecidableEq α] (l : List α) :
    dedupFirst l = [] ↔ l = [] := by
  constructor
  · intro h
    cases l with
    | nil => rfl
    | cons x xs =>
      exfalso
      have hx := (mem_dedupFirst (x :: xs) x).mpr (by simp)
      rw [h] at hx
      simp at hx
  · rintro rfl
    rfl

/-! Helper lemmas about the planner's grouping fold. -/

theorem helperCollection_concat (ws : List Warning) (w : Warning) :
    helperCollectionFilesErrorsFromWarningsArray (ws ++ [w]) =
      if w.severity == "error" then
        mapAddRule (helperCollectionFilesErrorsFromWarningsArray ws)
          (keyOfWarning w) w.rule
      else helperCollectionFilesErrorsFromWarningsArray ws := by
  unfold helperCollectionFilesErrorsFromWarningsArray
  rw [List.foldl_append]
  rfl

theorem collection_eq_spec (ws : List Warning) :
    helperCollectionFilesErrorsFromWarningsArray ws = plannerGroupingSpec ws := by
  induction ws using List.reverseRecOn with
  | nil => rfl
  | append_singleton ws w ih =>
    rw [helperCollection_concat, ih]
    by_cases hw : w.severity == "error"
    · rw [if_pos hw]
      simp only [plannerGroupingSpec, List.filter_append, List.filter_cons,
        List.filter_nil, hw, if_pos, List.map_append]
      set es := ws.filter (fun x => x.severity == "error") with hes
      set k := keyOfWarning w with hkdef
      set keysOld := dedupFirst (es.map keyOfWarning) with hkeys
      simp only [List.map_cons, List.map_nil]
      rw [dedupFirst_concat]
      by_cases hk : k ∈ keysOld
      · -- existing key: the map is updated in place
        have hany : (keysOld.map (fun k' =>
            (k', dedupFirst ((es.filter fun w' => keyOfWarning w' == k').map
              Warning.rule)))).any (fun e => e.1 == k) = true := by
          rw [List.any_eq_true]
          refine ⟨(k, dedupFirst ((es.filter fun w' => keyOfWarning w' == k).map
            Warning.rule)), List.mem_map_of_mem _ hk, by simp⟩
        unfold mapAddRule
        rw [if_pos hany]
        rw [jsSetAdd, if_pos hk, List.map_map]
        apply List.map_congr_left
        intro a ha
        by_cases hak : a = k
        · subst hak
          simp only [Function.comp_apply, beq_self_eq_true, if_pos]
          simp only [List.map_cons, List.map_nil]
          rw [dedupFirst_concat]
        · have hbk : (a == k) = false := by simp [hak]
          have hka : (k == a) = false := by
            rw [beq_eq_false_iff_ne]
            exact fun h => hak h.symm
          simp only [Function.comp_apply, hbk, Bool.false_eq_true, if_false,
            hka, List.map_nil, List.append_nil]
      · -- new key: appended at the end of the map
        have hany : (keysOld.map (fun k' =>
            (k', dedupFirst ((es.filter fun w' => keyOfWarning w' == k').map
              Warning.rule)))).any (fun e => e.1 == k) = false := by
          rw [List.any_eq_false]
          rintro ⟨a, rules⟩ hmem
          rcases List.mem_map.mp hmem with ⟨k', hk', hEq⟩
          cases hEq
          intro hcontra
          exact hk ((beq_iff_eq).mp hcontra ▸ hk')
        unfold mapAddRule
        rw [if_neg (by simp [hany])]
        have h1 : jsSetAdd ([] : List String) w.rule = [w.rule] := by
          simp [jsSetAdd]
        have h2 : jsSetAdd keysOld k = keysOld ++ [k] := by
          unfold jsSetAdd
          rw [if_neg hk]
        rw [h1, h2, List.map_append]
        congr 1
        · apply List.map_congr_left
          intro a ha
          have hka : (k == a) = false := by
            rw [beq_eq_false_iff_ne]
            exact fun h => hk (h ▸ ha)
          simp [hka]
        · have hfil : es.filter (fun w' => keyOfWarning w' == k) = [] := by
            rw [List.filter_eq_nil_iff]
            intro w' hw' hcontra
            apply hk
            rw [hkeys, mem_dedupFirst]
            exact (beq_iff_eq.mp hcontra) ▸ List.mem_map_of_mem _ hw'
          simp only [List.map_cons, List.map_nil, hfil]
          simp [dedupFirst, jsSetAdd]
    · rw [if_neg hw]
      simp [plannerGroupingSpec, List.filter_append, hw]

/-! Helper lemmas about the planner's stable sort. -/

theorem orderedInsert_filter_self (a : String × List String)
    (l : List (String × List String)) :
    (l.orderedInsert planLE a).filter
        (fun e => keyStartLine e.1 == keyStartLine a.1) =
      a :: l.filter (fun e => keyStartLine e.1 == keyStartLine a.1) := by
  induction l with
  | nil => simp [List.orderedInsert]
  | cons b l ih =>
    rw [List.orderedInsert]
    by_cases h : planLE a b
    · rw [if_pos h]
      simp [List.filter_cons]
    · rw [if_neg h]
      have hb : (keyStartLine b.1 == keyStartLine a.1) = false := by
        rw [beq_eq_false_iff_ne]
        unfold planLE at h
        omega
      simp only [List.filter_cons, hb, Bool.false_eq_true, if_false]
      exact ih

theorem orderedInsert_filter_other (a : String × List String)
    (l : List (String × List String)) (n : Nat) (h : keyStartLine a.1 ≠ n) :
    (l.orderedInsert planLE a).filter (fun e => keyStartLine e.1 == n) =
      l.filter (fun e => keyStartLine e.1 == n) := by
  have ha : (keyStartLine a.1 == n) = false := by
    rw [beq_eq_false_iff_ne]
    exact h
  induction l with
  | nil => simp [List.orderedInsert, ha]
  | cons b l ih =>
    rw [List.orderedInsert]
    by_cases hle : planLE a b
    · rw [if_pos hle]
      simp only [List.filter_cons, ha, Bool.false_eq_true, if_false]
    · rw [if_neg hle]
      simp only [List.filter_cons]
      rw [ih]

theorem insertionSort_filter_key (l : List (String × List String)) (n : Nat) :
    (List.insertionSort planLE l).filter (fun e => keyStartLine e.1 == n) =
      l.filter (fun e => keyStartLine e.1 == n) := by
  induction l with
  | nil => rfl
  | cons a l ih =>
    rw [List.insertionSort]
    by_cases h : keyStartLine a.1 = n
    · subst h
      rw [orderedInsert_filter_self, ih]
      simp [List.filter_cons]
    · rw [orderedInsert_filter_other _ _ _ h, ih]
      have ha : (keyStartLine a.1 == n) = false := by
        rw [beq_eq_false_iff_ne]
        exact h
      simp [List.filter_cons, ha]

theorem collection_keys (ws : List Warning) :
    (helperCollectionFilesErrorsFromWarningsArray ws).map Prod.fst =
      dedupFirst ((ws.filter (fun w => w.severity == "error")).map keyOfWarning) := by
  rw [collection_eq_spec]
  unfold plannerGroupingSpec
  rw [List.map_map]
  exact List.map_id _

theorem plan_keys_nodup (ws : List Warning) :
    ((helperSortedEntiresFromCollectionFilesErrors
      (helperCollectionFilesErrorsFromWarningsArray ws)).map Prod.fst).Nodup := by
  have hperm :=
    (List.perm_insertionSort planLE
      (helperCollectionFilesErrorsFromWarningsArray ws)).map Prod.fst
  unfold helperSortedEntiresFromCollectionFilesErrors
  rw [hperm.nodup_iff, collection_keys]
  exact nodup_dedupFirst _

/-- C3: the suppression planner discards every violation whose severity is not
`error` and groups the rest by the exact (startLine, endLine) key, collecting
the set of distinct rules per group (proved as equality with the spec-level
grouping `plannerGroupingSpec`); on the input
`[{1,1,'a'}, {1,1,'b'}, {3,3,'c'}]` (all errors) the sorted plan is exactly
`[(1|1, {a,b}), (3|3, {c})]`, in that order. -/
theorem planner_grouping_correct :
    (∀ ws : List Warning,
      helperCollectionFilesErrorsFromWarningsArray ws = plannerGroupingSpec ws) ∧
    (helperSortedEntiresFromCollectionFilesErrors
        (helperCollectionFilesErrorsFromWarningsArray
          [⟨"error", 1, 1, "a"⟩, ⟨"error", 1, 1, "b"⟩, ⟨"error", 3, 3, "c"⟩]) =
      [("1|1", ["a", "b"]), ("3|3", ["c"])]) := by
  exact ⟨collection_eq_spec, by decide⟩

/-- C6 counterexample: the grouping key is the (startLine, endLine) pair, not
the start line alone, so two error violations with ranges (2,3) and (2,5)
produce two distinct plan entries that share startLine 2 — the claim that no
two plan entries share a startLine is false. -/
theorem planner_startline_shared_counterexample :
    helperSortedEntiresFromCollectionFilesErrors
        (helperCollectionFilesErrorsFromWarningsArray
          [⟨"error", 2, 3, "a"⟩, ⟨"error", 2, 5, "b"⟩]) =
      [("2|3", ["a"]), ("2|5", ["b"])] ∧
    keyStartLine "2|3" = 2 ∧ keyStartLine "2|5" = 2 ∧ ("2|3" : String) ≠ "2|5" := by
  decide

/-- C6 (amended): for every input violation list the plan is weakly sorted
ascending by startLine and the sort is stable (entries with any fixed startLine
keep the relative order they had in the grouped collection); the grouping keys
(startLine, endLine) are unique across plan entries, but two entries may share
a startLine when their endLines differ. -/
theorem planner_plan_ordering (ws : List Warning) :
    List.Sorted planLE
      (helperSortedEntiresFromCollectionFilesErrors
        (helperCollectionFilesErrorsFromWarningsArray ws)) ∧
    ((helperSortedEntiresFromCollectionFilesErrors
        (helperCollectionFilesErrorsFromWarningsArray ws)).map Prod.fst).Nodup ∧
    (∀ n : Nat,
      (helperSortedEntiresFromCollectionFilesErrors
          (helperCollectionFilesErrorsFromWarningsArray ws)).filter
        (fun e => keyStartLine e.1 == n) =
      (helperCollectionFilesErrorsFromWarningsArray ws).filter
        (fun e => keyStartLine e.1 == n)) := by
  refine ⟨List.sorted_insertionSort planLE _, plan_keys_nodup ws, fun n => ?_⟩
  exact insertionSort_filter_key _ n

/-! Helper lemmas about filtering. -/

theorem filter_map_idem {α : Type} (g : α → α) (p : α → Bool)
    (hgg : ∀ e, g (g e) = g e) (m : List α) :
    (((m.map g).filter p).map g).filter p = (m.map g).filter p := by
  have hfix : ∀ x ∈ (m.map g).filter p, g x = id x := by
    intro x hx
    rcases List.mem_filter.mp hx with ⟨hxm, _⟩
    rcases List.mem_map.mp hxm with ⟨e, _, rfl⟩
    exact hgg e
  rw [List.map_congr_left hfix, List.map_id]
  apply List.filter_eq_self.mpr
  intro x hx
  exact (List.mem_filter.mp hx).2

/-- C8: the disable-comment filter is idempotent, both on the eliminator's flat
file set and on the compress script's per-entry map: a second application
removes nothing, since the per-file predicate only looks at that file's first
non-blank line and the filter never modifies file contents. -/
theorem disable_filter_idempotent :
    (∀ (fileLines : String → List String) (files : List String),
      filterFilesWithDisableComment fileLines
          (filterFilesWithDisableComment fileLines files) =
        filterFilesWithDisableComment fileLines files) ∧
    (∀ (fileLines : String → List String) (m : List (String × List JSVal)),
      filterFilesWithDisableCommentEntries fileLines
          (filterFilesWithDisableCommentEntries fileLines m) =
        filterFilesWithDisableCommentEntries fileLines m) := by
  constructor
  · intro fl files
    unfold filterFilesWithDisableComment
    rw [List.filter_filter]
    congr 1
    funext f
    exact Bool.and_self _
  · intro fl m
    unfold filterFilesWithDisableCommentEntries
    apply filter_map_idem
    intro e
    simp [List.filter_filter, Bool.and_self]

/-! Helper lemmas about the compress script's error filter. -/

theorem filesDelete_strs (files : List JSVal)
    (h : ∀ v ∈ files, ∃ s, v = JSVal.str s) (r : CompressLintResult) :
    filesDeleteResult files r = files := by
  apply List.filter_eq_self.mpr
  intro v hv
  rcases h v hv with ⟨s, rfl⟩
  rfl

theorem foldl_filesDelete_strs (results : List CompressLintResult)
    (files : List JSVal) (h : ∀ v ∈ files, ∃ s, v = JSVal.str s) :
    results.foldl
        (fun fs r => if !r.errored then filesDeleteResult fs r else fs) files =
      files := by
  induction results with
  | nil => rfl
  | cons r rs ih =>
    rw [List.foldl_cons]
    cases hr : r.errored
    · simp only [hr, Bool.not_false, if_pos]
      rw [filesDelete_strs files h r]
      exact ih
    · simp only [hr, Bool.not_true, Bool.false_eq_true, if_false]
      exact ih

theorem filterRun_preserves (lint : List JSVal → Option (List CompressLintResult))
    (coll : List (String × List JSVal))
    (hstr : ∀ e ∈ coll, ∀ v ∈ e.2, ∃ s, v = JSVal.str s)
    (hne : ∀ e ∈ coll, e.2 ≠ []) :
    (filterFilesWithoutErrorsRun lint coll).1 = coll := by
  induction coll with
  | nil => rfl
  | cons e rest ih =>
    unfold filterFilesWithoutErrorsRun
    cases h : lint e.2 with
    | none => rfl
    | some results =>
      simp only
      rw [foldl_filesDelete_strs results e.2 (hstr e (by simp))]
      have hemp : e.2.isEmpty = false := by
        cases h2 : e.2 with
        | nil => exact absurd h2 (hne e (by simp))
        | cons x xs => rfl
      rw [hemp]
      simp only [Bool.false_eq_true, if_false]
      rw [ih (fun a ha => hstr a (by simp [ha])) (fun a ha => hne a (by simp [ha]))]

/-- C4 (the code contradicts the claim): `filterFilesWithoutErrors` passes the
whole lint-result object to `files.delete`, not the path string, so the delete
never matches and no file is ever removed.  At the failing input — one entry
whose only file has `errored = false` — the claim demands the file be removed
and the entry dropped, but the code keeps both and rewrites the manifest with
the entry intact. -/
theorem compactor_error_filter_bug :
    (filterFilesWithoutErrorsRun (fun _ => some [⟨0, false⟩])
        [("a.css", [JSVal.str "a.css"])]).1 =
      [("a.css", [JSVal.str "a.css"])] ∧
    writeNewStylelintIgnoreContent [("a.css", [JSVal.str "a.css"])] = "a.css\n" := by
  exact ⟨rfl, rfl⟩

/-- C5 (the code contradicts the claim): of the three rename sites, the catch
handlers of `addingCommentsWithStylelintErrors` and `filterFilesWithoutErrors`
do restore the manifest on every exit path, but `getStylelintCountErrors` has
no try/catch at all: when its lint invocation rejects, the run ends with the
manifest still renamed to `hash`. -/
theorem rename_restore_gap :
    manifestRenamedAfter (getStylelintCountErrorsRun none).2 = true ∧
    (∀ (lint : Option (List LintFileResult)) (useD : Bool) (ip : String)
        (fs : List (String × String)),
      manifestRenamedAfter
        (addingCommentsWithStylelintErrors useD ip lint fs).2.2 = false) ∧
    (∀ (lint : List JSVal → Option (List CompressLintResult))
        (coll : List (String × List JSVal)),
      manifestRenamedAfter (filterFilesWithoutErrorsRun lint coll).2 = false) := by
  refine ⟨rfl, fun lint useD ip fs => ?_, fun lint coll => ?_⟩
  · cases lint <;> rfl
  · induction coll with
    | nil => rfl
    | cons e rest ih =>
      unfold filterFilesWithoutErrorsRun
      cases h : lint e.2 with
      | none => rfl
      | some results =>
        simp only
        show manifestRenamedAfter (filterFilesWithoutErrorsRun lint rest).2 = false
        exact ih

/-! String and line-splitting helper lemmas. -/

theorem string_data_append (a b : String) : (a ++ b).data = a.data ++ b.data := by
  cases a
  cases b
  rfl

theorem string_append_assoc (a b c : String) : a ++ b ++ c = a ++ (b ++ c) := by
  apply String.ext
  simp only [string_data_append, List.append_assoc]

theorem string_mk_data (s : String) : String.mk s.data = s := by
  cases s
  rfl

theorem string_empty_append (s : String) : "" ++ s = s := by
  cases s
  rfl

theorem splitOnCharAux_sep (c : Char) (rest : List Char) :
    ∀ (pre acc : List Char), c ∉ pre →
      splitOnCharAux c (pre ++ c :: rest) acc =
        String.mk (acc.reverse ++ pre) :: splitOnCharAux c rest [] := by
  intro pre
  induction pre with
  | nil =>
    intro acc _
    simp [splitOnCharAux]
  | cons x pre ih =>
    intro acc h
    have hx : ¬x = c := by
      intro e
      exact h (e ▸ List.mem_cons_self x pre)
    rw [List.cons_append]
    show splitOnCharAux c (x :: (pre ++ c :: rest)) acc = _
    simp only [splitOnCharAux, if_neg hx]
    rw [ih (x :: acc) (fun hc => h (List.mem_cons_of_mem x hc))]
    simp

theorem splitOnCharAux_no_sep (c : Char) :
    ∀ (l acc : List Char), c ∉ l →
      splitOnCharAux c l acc = [String.mk (acc.reverse ++ l)] := by
  intro l
  induction l with
  | nil =>
    intro acc _
    simp [splitOnCharAux]
  | cons x xs ih =>
    intro acc h
    have hx : ¬x = c := by
      intro e
      exact h (e ▸ List.mem_cons_self x xs)
    simp only [splitOnCharAux, if_neg hx]
    rw [ih (x :: acc) (fun hc => h (List.mem_cons_of_mem x hc))]
    simp

theorem split_join (lines : List String) (hne : lines ≠ [])
    (hnl : ∀ l ∈ lines, ('\n' : Char) ∉ l.data) :
    splitOnChar '\n' (joinWithNewlines lines ++ "\n") = lines ++ [""] := by
  induction lines with
  | nil => exact absurd rfl hne
  | cons l ls ih =>
    cases ls with
    | nil =>
      show splitOnChar '\n' (l ++ "\n") = [l, ""]
      unfold splitOnChar
      rw [string_data_append]
      show splitOnCharAux '\n' (l.data ++ '\n' :: []) [] = [l, ""]
      rw [splitOnCharAux_sep '\n' [] l.data [] (hnl l (by simp))]
      simp [splitOnCharAux, string_mk_data]
    | cons l2 ls2 =>
      show splitOnChar '\n'
          (l ++ "\n" ++ joinWithNewlines (l2 :: ls2) ++ "\n") = _
      unfold splitOnChar
      rw [string_data_append, string_data_append, string_data_append]
      have hdata : (l.data ++ ("\n" : String).data ++
          (joinWithNewlines (l2 :: ls2)).data) ++ ("\n" : String).data =
          l.data ++ '\n' ::
            ((joinWithNewlines (l2 :: ls2)).data ++ '\n' :: []) := by
        show (l.data ++ ['\n'] ++ _) ++ ['\n'] = _
        simp
      rw [hdata]
      rw [splitOnCharAux_sep '\n' _ l.data [] (hnl l (by simp))]
      have htail : splitOnCharAux '\n'
          ((joinWithNewlines (l2 :: ls2)).data ++ '\n' :: []) [] =
          splitOnChar '\n' (joinWithNewlines (l2 :: ls2) ++ "\n") := by
        unfold splitOnChar
        rw [string_data_append]
      rw [htail, ih (by simp) (fun x hx => hnl x (List.mem_cons_of_mem l hx))]
      simp [string_mk_data]

/-! Helper lemmas for the compactor round-trip. -/

theorem reader_foldl (glob : String → List String) (lines : List String) :
    ∀ acc : List (String × List JSVal),
      lines.Nodup →
      (∀ l ∈ lines, jsTrim l ≠ "") →
      (∀ l ∈ lines, (jsTrim l).data.headD ' ' ≠ '#') →
      (∀ l ∈ lines, glob (transformPattern l) ≠ []) →
      (∀ l ∈ lines, ∀ e ∈ acc, e.1 ≠ l) →
      lines.foldl (readerStep glob) acc =
        acc ++ lines.map (fun l =>
          (l, (dedupFirst (glob (transformPattern l))).map JSVal.str)) := by
  induction lines with
  | nil =>
    intro acc _ _ _ _ _
    simp
  | cons l ls ih =>
    intro acc hnodup hblank hhash hglob hkeys
    rw [List.foldl_cons]
    have hb1 : ¬(jsTrim l == "") = true := by
      rw [beq_iff_eq]
      exact hblank l (List.mem_cons_self l ls)
    have hb2 : ¬((jsTrim l).data.headD ' ' == '#') = true := by
      rw [beq_iff_eq]
      exact hhash l (List.mem_cons_self l ls)
    have hb3 : (glob (transformPattern l)).isEmpty = false := by
      cases hg : glob (transformPattern l) with
      | nil => exact absurd hg (hglob l (List.mem_cons_self l ls))
      | cons x xs => rfl
    have hb4 : acc.any (fun e => e.1 == l) = false := by
      rw [List.any_eq_false]
      intro e he hc
      exact hkeys l (List.mem_cons_self l ls) e he (beq_iff_eq.mp hc)
    have hstep : readerStep glob acc l =
        acc ++ [(l, (dedupFirst (glob (transformPattern l))).map JSVal.str)] := by
      unfold readerStep
      rw [if_neg hb1, if_neg hb2]
      simp only [hb3, Bool.false_eq_true, if_false]
      unfold mapSetEntry
      rw [if_neg (by simp [hb4])]
    rw [hstep]
    rw [ih (acc ++ [(l, (dedupFirst (glob (transformPattern l))).map JSVal.str)])
      (List.Nodup.of_cons hnodup)
      (fun x hx => hblank x (List.mem_cons_of_mem l hx))
      (fun x hx => hhash x (List.mem_cons_of_mem l hx))
      (fun x hx => hglob x (List.mem_cons_of_mem l hx))
      ?hkeys]
    · simp
    case hkeys =>
      intro x hx e he
      rcases List.mem_append.mp he with h | h
      · exact hkeys x (List.mem_cons_of_mem l hx) e h
      · rcases List.mem_singleton.mp h with rfl
        intro hcontra
        have hlx : l = x := hcontra
        rw [hlx] at hnodup
        exact (List.nodup_cons.mp hnodup).1 hx

theorem disableFilter_keeps (fileLines : String → List String)
    (m : List (String × List JSVal))
    (hpass : ∀ e ∈ m, ∀ v ∈ e.2,
      firstNonBlankIsBlanketDisable (jsValLines fileLines v) = false)
    (hne : ∀ e ∈ m, e.2.isEmpty = false) :
    filterFilesWithDisableCommentEntries fileLines m = m := by
  unfold filterFilesWithDisableCommentEntries
  have hmap : m.map (fun e =>
      (e.1, e.2.filter
        (fun v => !(firstNonBlankIsBlanketDisable (jsValLines fileLines v))))) =
      m := by
    have hfix : ∀ e ∈ m, (e.1, e.2.filter
        (fun v => !(firstNonBlankIsBlanketDisable (jsValLines fileLines v)))) =
        id e := by
      intro e he
      have : e.2.filter
          (fun v => !(firstNonBlankIsBlanketDisable (jsValLines fileLines v))) =
          e.2 := by
        apply List.filter_eq_self.mpr
        intro v hv
        rw [hpass e he v hv]
        rfl
      rw [this]
      rfl
    rw [List.map_congr_left hfix, List.map_id]
  rw [hmap]
  apply List.filter_eq_self.mpr
  intro e he
  rw [hne e he]
  rfl

theorem writeNew_foldl (F : String → List JSVal) (mlines : List String)
    (hne : ∀ l ∈ mlines, (F l).isEmpty = false) (hn : mlines ≠ []) :
    ∀ acc : String,
      (mlines.map (fun l => (l, F l))).foldl writeNewStep acc =
        acc ++ (joinWithNewlines mlines ++ "\n") := by
  induction mlines with
  | nil => exact absurd rfl hn
  | cons l ls ih =>
    intro acc
    rw [List.map_cons, List.foldl_cons]
    have hstep : writeNewStep acc (l, F l) = acc ++ l ++ "\n" := by
      unfold writeNewStep
      simp only [hne l (List.mem_cons_self l ls), Bool.false_eq_true, if_false]
    rw [hstep]
    cases ls with
    | nil =>
      show acc ++ l ++ "\n" = acc ++ (l ++ "\n")
      rw [string_append_assoc]
    | cons l2 ls2 =>
      rw [ih (fun x hx => hne x (List.mem_cons_of_mem l hx)) (by simp)]
      show _ = acc ++ (l ++ "\n" ++ joinWithNewlines (l2 :: ls2) ++ "\n")
      apply String.ext
      simp [string_data_append, List.append_assoc]

theorem readerStep_empty_line (glob : String → List String)
    (acc : List (String × List JSVal)) : readerStep glob acc "" = acc := by
  unfold readerStep
  rfl

/-- C7 counterexample: on the manifest `"# note\na.css"` — whose only entry
`a.css` resolves and still errors — the compactor rewrites the manifest to
`"a.css\n"`, dropping the comment line, so the content is not preserved under
either trailing-newline convention. -/
theorem compactor_roundtrip_counterexample :
    (compressStylelintIgnoreRun "# note\na.css" (fun _ => ["a.css"])
        (fun _ => [".x"]) (fun _ => some [⟨0, true⟩])).1 = "a.css\n" ∧
    ("a.css\n" : String) ≠ "# note\na.css" ∧
    ("a.css\n" : String) ≠ "# note\na.css\n" := by
  decide

/-- C7 (amended): the compactor round-trip holds for manifests whose every line
is non-blank, not a `#`-comment, pairwise distinct, newline-free, resolves (after
the directory transform) to at least one file, and none of whose resolved files
starts with a blanket disable comment: the rewritten manifest is the original
line sequence re-joined with `\n` plus a trailing newline, for every lint
outcome — lint outcomes cannot matter because `filterFilesWithoutErrors` never
removes a path from a file set (see the C4 bug). -/
theorem compactor_roundtrip_amended (lines : List String)
    (glob : String → List String) (fileLines : String → List String)
    (lint : List JSVal → Option (List CompressLintResult))
    (hn : lines ≠ []) (hnodup : lines.Nodup)
    (hnl : ∀ l ∈ lines, ('\n' : Char) ∉ l.data)
    (hblank : ∀ l ∈ lines, jsTrim l ≠ "")
    (hhash : ∀ l ∈ lines, (jsTrim l).data.headD ' ' ≠ '#')
    (hglob : ∀ l ∈ lines, glob (transformPattern l) ≠ [])
    (hdis : ∀ l ∈ lines, ∀ f ∈ glob (transformPattern l),
      firstNonBlankIsBlanketDisable (fileLines f) = false) :
    (compressStylelintIgnoreRun (joinWithNewlines lines ++ "\n") glob fileLines
        lint).1 = joinWithNewlines lines ++ "\n" := by
  have hne' : ∀ e ∈ lines.map (fun l =>
      (l, (dedupFirst (glob (transformPattern l))).map JSVal.str)),
      e.2.isEmpty = false := by
    intro e he
    rcases List.mem_map.mp he with ⟨l, hl, rfl⟩
    show ((dedupFirst (glob (transformPattern l))).map JSVal.str).isEmpty = false
    cases hg : dedupFirst (glob (transformPattern l)) with
    | nil => exact absurd ((dedupFirst_eq_nil _).mp hg) (hglob l hl)
    | cons x xs => rfl
  have hreader : getStylelintIgnoreContentEntries glob
      (splitOnChar '\n' (joinWithNewlines lines ++ "\n")) =
      lines.map (fun l =>
        (l, (dedupFirst (glob (transformPattern l))).map JSVal.str)) := by
    rw [split_join lines hn hnl]
    unfold getStylelintIgnoreContentEntries
    rw [List.foldl_append, List.foldl_cons, List.foldl_nil, readerStep_empty_line]
    rw [reader_foldl glob lines [] hnodup hblank hhash hglob
      (by intro l hl e he; simp at he)]
    simp
  have hfilter : filterFilesWithDisableCommentEntries fileLines
      (lines.map (fun l =>
        (l, (dedupFirst (glob (transformPattern l))).map JSVal.str))) =
      lines.map (fun l =>
        (l, (dedupFirst (glob (transformPattern l))).map JSVal.str)) := by
    apply disableFilter_keeps
    · intro e he v hv
      rcases List.mem_map.mp he with ⟨l, hl, rfl⟩
      rcases List.mem_map.mp hv with ⟨f, hf, rfl⟩
      show firstNonBlankIsBlanketDisable (fileLines f) = false
      exact hdis l hl f ((mem_dedupFirst _ _).mp hf)
    · exact hne'
  have hrun : (filterFilesWithoutErrorsRun lint
      (lines.map (fun l =>
        (l, (dedupFirst (glob (transformPattern l))).map JSVal.str)))).1 =
      lines.map (fun l =>
        (l, (dedupFirst (glob (transformPattern l))).map JSVal.str)) := by
    apply filterRun_preserves
    · intro e he v hv
      rcases List.mem_map.mp he with ⟨l, hl, rfl⟩
      rcases List.mem_map.mp hv with ⟨f, hf, rfl⟩
      exact ⟨f, rfl⟩
    · intro e he
      rcases List.mem_map.mp he with ⟨l, hl, rfl⟩
      intro hc
      have h2 := hne' _ (List.mem_map_of_mem _ hl)
      have hc' : (dedupFirst (glob (transformPattern l))).map JSVal.str = [] := hc
      rw [hc'] at h2
      exact absurd h2 (by simp)
  have hwrite : writeNewStylelintIgnoreContent
      (lines.map (fun l =>
        (l, (dedupFirst (glob (transformPattern l))).map JSVal.str))) =
      joinWithNewlines lines ++ "\n" := by
    unfold writeNewStylelintIgnoreContent
    rw [writeNew_foldl (fun l => (dedupFirst (glob (transformPattern l))).map JSVal.str)
      lines (fun l hl => hne' _ (List.mem_map_of_mem _ hl)) hn ""]
    exact string_empty_append _
  unfold compressStylelintIgnoreRun
  dsimp only
  rw [hreader, hfilter, hrun, hwrite]

/-- C7 witness: a concrete instantiation of the amended round-trip. -/
theorem compactor_roundtrip_amended_witness :
    (compressStylelintIgnoreRun (joinWithNewlines ["a.css"] ++ "\n")
        (fun _ => ["a.css"]) (fun _ => [".x"]) (fun _ => none)).1 =
      joinWithNewlines ["a.css"] ++ "\n" :=
  compactor_roundtrip_amended ["a.css"] (fun _ => ["a.css"]) (fun _ => [".x"])
    (fun _ => none) (by decide) (by decide) (by decide) (by decide) (by decide)
    (by decide) (by decide)

/-- C10: in the eliminator's comment-writing pass, the write trace consists, per
lint result with `errored = true` and in result order, of the write of that
source file immediately followed by one truncation of the manifest (so the
truncation happens inside the per-file loop, once per errored file); every
write to the manifest path writes the empty string; and when no result has
`errored = true` the pass leaves the filesystem — manifest and source files —
completely unchanged. -/
theorem eliminator_truncation (useStylelintDisableComments : Bool) (ip : String)
    (results : List LintFileResult) (fs : List (String × String))
    (hsrc : ∀ r ∈ results, r.source ≠ ip) :
    ((addingCommentsLoop useStylelintDisableComments ip results fs).2.map
        Prod.fst =
      (results.filter (fun r => r.errored)).flatMap (fun r => [r.source, ip])) ∧
    (∀ q ∈ (addingCommentsLoop useStylelintDisableComments ip results fs).2,
      q.1 = ip → q.2 = "") ∧
    ((∀ r ∈ results, r.errored = false) →
      (addingCommentsLoop useStylelintDisableComments ip results fs).1 = fs) := by
  induction results generalizing fs with
  | nil =>
    exact ⟨rfl, by simp [addingCommentsLoop], fun _ => rfl⟩
  | cons r rs ih =>
    have hsrc' : ∀ x ∈ rs, x.source ≠ ip :=
      fun x hx => hsrc x (List.mem_cons_of_mem r hx)
    cases hr : r.errored with
    | false =>
      simp only [addingCommentsLoop, hr, Bool.false_eq_true, if_false]
      obtain ⟨h1, h2, h3⟩ := ih fs hsrc'
      refine ⟨?_, h2, ?_⟩
      · rw [h1, List.filter_cons]
        simp [hr]
      · intro hall
        exact h3 (fun x hx => hall x (List.mem_cons_of_mem r hx))
    | true =>
      simp only [addingCommentsLoop, hr, if_true]
      obtain ⟨h1, h2, h3⟩ := ih (fsWrite
        (fsWrite fs r.source
          (newFileContent useStylelintDisableComments (fsRead fs r.source)
            r.warnings)) ip "") hsrc'
      refine ⟨?_, ?_, ?_⟩
      · rw [List.map_cons, List.map_cons, h1, List.filter_cons]
        simp [hr]
      · intro q hq hqip
        rcases List.mem_cons.mp hq with rfl | hq2
        · exact absurd hqip (hsrc r (List.mem_cons_self r rs))
        · rcases List.mem_cons.mp hq2 with rfl | hq3
          · rfl
          · exact h2 q hq3 hqip
      · intro hall
        exact absurd (hall r (List.mem_cons_self r rs)) (by simp [hr])

/-- C10 witness: with one non-errored result, the pass leaves the filesystem
unchanged. -/
theorem eliminator_truncation_witness :
    (addingCommentsLoop true ".stylelintignore" [⟨"a.css", false, []⟩]
        [("a.css", "p")]).1 = [("a.css", "p")] :=
  (eliminator_truncation true ".stylelintignore" [⟨"a.css", false, []⟩]
    [("a.css", "p")] (by decide)).2.2 (by decide)

/-- C9 counterexample: the compactor's two reports are the manifest's byte size
and line count (here (5,1) before and (6,2) after), not the total error count
obtained from the violation query service (here 3): the compactor never invokes
the query service for its reports. -/
theorem compactor_reporting_counterexample :
    (compressStylelintIgnoreRun "a.css" (fun _ => ["a.css"]) (fun _ => [".x"])
        (fun _ => some [⟨0, true⟩])).2 = ((5, 1), (6, 2)) ∧
    getStylelintCountErrorsCount
        [⟨"a.css", true, [⟨"error", 1, 1, "r1"⟩, ⟨"error", 2, 2, "r2"⟩,
          ⟨"error", 3, 3, "r3"⟩]⟩] = 3 ∧
    (5 : Nat) ≠ 3 ∧ (1 : Nat) ≠ 3 ∧ (6 : Nat) ≠ 3 ∧ (2 : Nat) ≠ 3 := by
  decide

/-- C9 (amended): only the eliminator reports before/after error counts through
the violation query service — the before count over the full resolved file set
on the initial filesystem, the after count over the post-filter file set
against the mutated filesystem; the compactor's two reports are the manifest's
(byte size, line count) before and after rewriting. -/
theorem before_after_reporting_amended (c : String) (glob : String → List String)
    (lintE : List String → List (String × String) → List LintFileResult)
    (ip : String) (fs0 : List (String × String))
    (fileLines : String → List String)
    (lintC : List JSVal → Option (List CompressLintResult)) :
    ((deleteStylelintIgnoreRun c glob lintE ip fs0).1.1 =
      ((getStylelintCountErrorsRun (some (lintE
        (getStylelintIgnoreContentFiles glob (splitOnChar '\n' c)) fs0))).1).getD 0) ∧
    ((deleteStylelintIgnoreRun c glob lintE ip fs0).1.2 =
      ((getStylelintCountErrorsRun (some (lintE
        (filterFilesWithDisableComment
          (fun f => splitOnChar '\n' (fsRead fs0 f))
          (getStylelintIgnoreContentFiles glob (splitOnChar '\n' c)))
        (deleteStylelintIgnoreRun c glob lintE ip fs0).2))).1).getD 0) ∧
    ((compressStylelintIgnoreRun c glob fileLines lintC).2.1 =
      determinateSizeAndLengthFile c) ∧
    ((compressStylelintIgnoreRun c glob fileLines lintC).2.2 =
      determinateSizeAndLengthFile
        (compressStylelintIgnoreRun c glob fileLines lintC).1) := by
  exact ⟨rfl, rfl, rfl, rfl⟩

end VkStylelint
